import Mathlib

/-!
Verification of `block_triangularize`
(`parker_cce2022/common/incidence_analysis/triangularize.py`).

The Python function takes a SciPy sparse matrix and an optional perfect
matching (a dict from row indices to column indices), and returns
`(row_block_map, col_block_map, dag_ll)`: the row/column block assignments of
a block-lower-triangular permutation, plus the adjacency structure of the
block DAG.

Embedding notes:
* A sparse matrix is modelled by its shape and its boolean nonzero predicate.
* A Python dict is modelled by an association list with distinct keys.
* The networkx calls (`from_biadjacency_matrix`, `strongly_connected_components`,
  `topological_sort`) are external library routines; they are modelled by their
  documented contracts.  The enumeration order of SCCs and the tie-breaking of
  the topological sort are unspecified by the library; we instantiate them
  deterministically (condensation nodes ordered by ancestor count in the
  condensation DAG, ties broken by smallest contained row index), which is one
  of the orders the library is allowed to return.  All properties proved below
  are invariant under that choice.
* `ValueError` / `AssertionError` raised by the Python code become an
  `Except` error value.
-/

namespace Triangularize

/-- Model of a SciPy sparse matrix: a shape `(M, N)` together with the boolean
nonzero predicate on entries.  Only indices `i < M`, `j < N` are meaningful. -/
structure SpMat where
  M : Nat
  N : Nat
  nz : Nat → Nat → Bool

/-- Python exceptions that `block_triangularize` can raise: `ValueError`
(with its message) for the two input checks, `AssertionError` for the
`assert len(col_row_map) == M` internal invariant. -/
inductive PyExc where
  | valueError (msg : String)
  | assertionError
deriving DecidableEq

/-- The exception class, forgetting the message: this is what a Python caller
can dispatch on structurally (an `except ValueError` / `except AssertionError`
clause). -/
inductive PyExcClass where
  | valueErrorClass
  | assertionErrorClass
deriving DecidableEq

/-- Class of an exception. -/
def PyExc.cls : PyExc → PyExcClass
  | .valueError _ => .valueErrorClass
  | .assertionError => .assertionErrorClass

/-- Message of the non-square `ValueError`
(`"block_triangularize does not currently support non-square matrices. ..."`). -/
def nonSquareMsg (M N : Nat) : String :=
  "block_triangularize does not currently support non-square matrices. Got matrix with shape " ++ toString (M, N) ++ "."

/-- Message of the imperfect-matching `ValueError`
(`"block_triangularize only supports matrices that have a perfect matching ..."`). -/
def incompleteMsg (len : Nat) : String :=
  "block_triangularize only supports matrices that have a perfect matching of rows and columns. Cardinality of maximal matching is " ++ toString len

/-- Dict lookup `m[r]` for a dict modelled as an association list
(`0` default on the paths the preconditions exclude). -/
def matchOf (m : List (Nat × Nat)) (r : Nat) : Nat :=
  ((m.find? (fun p => p.1 == r)).map Prod.snd).getD 0

/-- Lookup in the inverted dict `col_row_map = {c: r for r, c in matching.items()}`:
for a duplicate column the later item overwrites the earlier one, hence the
reversed search. -/
def colRow (m : List (Nat × Nat)) (c : Nat) : Nat :=
  ((m.reverse.find? (fun p => p.2 == c)).map Prod.fst).getD 0

/-- Generic dict lookup used to read the returned row/column block maps. -/
def dictGet (l : List (Nat × Nat)) (k : Nat) : Nat :=
  ((l.find? (fun p => p.1 == k)).map Prod.snd).getD 0

/-- The dict `{k: f k for k in range(n)}`. -/
def mkDict (f : Nat → Nat) (n : Nat) : List (Nat × Nat) :=
  (List.range n).map (fun k => (k, f k))

/-- A perfect matching of a square incidence structure, as the Python dict
satisfies it: one entry per row of `[0, M)`, distinct rows, distinct columns,
columns inside `[0, N)`. -/
def PerfectMatching (mat : SpMat) (m : List (Nat × Nat)) : Prop :=
  m.length = mat.M ∧ (m.map Prod.fst).Nodup ∧ (m.map Prod.snd).Nodup ∧
    (∀ p ∈ m, p.1 < mat.M ∧ p.2 < mat.N)

instance (mat : SpMat) (m : List (Nat × Nat)) : Decidable (PerfectMatching mat m) := by
  unfold PerfectMatching; exact inferInstance

/-- Neighbors of column node `M + c` in the bipartite graph built by
`from_biadjacency_matrix`: the rows whose entry in column `c` is nonzero. -/
def bgNeighbors (mat : SpMat) (c : Nat) : List Nat :=
  (List.range mat.M).filter (fun r => mat.nz r c)

/-- The edges of the directed row graph `dg`, exactly as the Python loop builds
them: for each node `n`, for each row `neighbor` sharing the column matched to
`n`, the edge `(neighbor, n)` is added. -/
def dgEdges (mat : SpMat) (m : List (Nat × Nat)) : List (Nat × Nat) :=
  (List.range mat.M).flatMap (fun n =>
    ((bgNeighbors mat (matchOf m n)).filter (fun nb => nb != n)).map (fun nb => (nb, n)))

/-- Boolean edge test of the row graph. -/
def dgE (mat : SpMat) (m : List (Nat × Nat)) (u v : Nat) : Bool :=
  decide ((u, v) ∈ dgEdges mat m)

/-- Characterization of the row-graph edges: `(u, v)` is an edge iff `u ≠ v`
and row `u` is nonzero in the column matched to row `v`. -/
theorem mem_dgEdges (mat : SpMat) (m : List (Nat × Nat)) (u v : Nat) :
    (u, v) ∈ dgEdges mat m ↔
      u < mat.M ∧ v < mat.M ∧ u ≠ v ∧ mat.nz u (matchOf m v) = true := by
  unfold dgEdges bgNeighbors
  simp only [List.mem_flatMap, List.mem_map, List.mem_filter, List.mem_range]
  constructor
  · rintro ⟨n, hn, nb, ⟨⟨hnbM, hnz⟩, hne⟩, heq⟩
    cases heq
    refine ⟨hnbM, hn, ?_, hnz⟩
    simpa using hne
  · rintro ⟨hu, hv, hne, hnz⟩
    exact ⟨v, hv, u, ⟨⟨hu, hnz⟩, by simpa using hne⟩, rfl⟩

/-! ### Reachability closure

`strongly_connected_components` and `topological_sort` are consumed via plain
reachability in a finite graph on the nodes `[0, M)`.  `reachSet E M u` is the
set of nodes reachable from `u`, computed by saturating a step function `M`
times, which reaches the fixed point because the node set has `M` elements. -/

/-- One saturation step: add every `E`-successor (inside `[0, M)`) of the
current set. -/
def stepR (E : Nat → Nat → Bool) (M : Nat) (s : Finset Nat) : Finset Nat :=
  s ∪ (Finset.range M).filter (fun v => ∃ u ∈ s, E u v = true)

/-- Nodes reachable from `u` (including `u`). -/
def reachSet (E : Nat → Nat → Bool) (M : Nat) (u : Nat) : Finset Nat :=
  (stepR E M)^[M] {u}

theorem subset_stepR (E : Nat → Nat → Bool) (M : Nat) (s : Finset Nat) :
    s ⊆ stepR E M s :=
  Finset.subset_union_left

theorem stepR_mono (E : Nat → Nat → Bool) (M : Nat) {s t : Finset Nat}
    (h : s ⊆ t) : stepR E M s ⊆ stepR E M t := by
  intro v hv
  unfold stepR at hv ⊢
  rcases Finset.mem_union.mp hv with hv | hv
  · exact Finset.mem_union_left _ (h hv)
  · rw [Finset.mem_filter] at hv
    rcases hv with ⟨hr, u, hu, he⟩
    exact Finset.mem_union_right _ (Finset.mem_filter.mpr ⟨hr, u, h hu, he⟩)

theorem stepR_subset_range (E : Nat → Nat → Bool) (M : Nat) {s : Finset Nat}
    (h : s ⊆ Finset.range M) : stepR E M s ⊆ Finset.range M := by
  unfold stepR
  exact Finset.union_subset h (Finset.filter_subset _ _)

theorem iterate_stepR_subset_range (E : Nat → Nat → Bool) (M : Nat)
    {s : Finset Nat} (h : s ⊆ Finset.range M) (k : Nat) :
    (stepR E M)^[k] s ⊆ Finset.range M := by
  induction k with
  | zero => simpa using h
  | succ k ih =>
      rw [Function.iterate_succ_apply']
      exact stepR_subset_range E M ih

theorem iterate_stepR_subset_succ (E : Nat → Nat → Bool) (M : Nat)
    (s : Finset Nat) (k : Nat) :
    (stepR E M)^[k] s ⊆ (stepR E M)^[k + 1] s := by
  rw [Function.iterate_succ_apply']
  exact subset_stepR E M _

theorem iterate_stepR_subset_of_le (E : Nat → Nat → Bool) (M : Nat)
    (s : Finset Nat) {j k : Nat} (h : j ≤ k) :
    (stepR E M)^[j] s ⊆ (stepR E M)^[k] s := by
  induction k with
  | zero => simp_all
  | succ k ih =>
      rcases Nat.lt_or_ge j (k + 1) with hj | hj
      · exact (ih (Nat.lt_succ_iff.mp hj)).trans (iterate_stepR_subset_succ E M s k)
      · have : j = k + 1 := Nat.le_antisymm h hj
        subst this; exact fun x hx => hx

/-- Either the iteration is already stationary at step `k`, or the cardinality
has grown at least `k` times. -/
theorem iterate_stepR_stat_or_card (E : Nat → Nat → Bool) (M : Nat)
    (s : Finset Nat) (k : Nat) :
    ((stepR E M)^[k] s = (stepR E M)^[k + 1] s) ∨
      k + s.card ≤ ((stepR E M)^[k] s).card := by
  induction k with
  | zero => right; simp
  | succ k ih =>
      rcases ih with hfix | hcard
      · left
        rw [Function.iterate_succ_apply', Function.iterate_succ_apply', ← hfix]
      · rcases eq_or_ne ((stepR E M)^[k] s) ((stepR E M)^[k + 1] s) with hfix | hne
        · left
          rw [Function.iterate_succ_apply', Function.iterate_succ_apply', ← hfix]
        · right
          have hss : (stepR E M)^[k] s ⊂ (stepR E M)^[k + 1] s :=
            Finset.ssubset_iff_subset_ne.mpr ⟨iterate_stepR_subset_succ E M s k, hne⟩
          have := Finset.card_lt_card hss
          omega

/-- The saturation stabilizes after `M` steps when started from a singleton
inside `[0, M)`. -/
theorem stepR_reachSet (E : Nat → Nat → Bool) (M : Nat) {u : Nat} (hu : u < M) :
    stepR E M (reachSet E M u) = reachSet E M u := by
  have hsub : ({u} : Finset Nat) ⊆ Finset.range M := by
    simpa using hu
  rcases iterate_stepR_stat_or_card E M {u} M with hfix | hcard
  · unfold reachSet
    exact (Function.iterate_succ_apply' (stepR E M) M {u}).symm.trans hfix.symm
  · exfalso
    have hle : ((stepR E M)^[M] ({u} : Finset Nat)).card ≤ M := by
      have := iterate_stepR_subset_range E M hsub M
      simpa using Finset.card_le_card this
    simp only [Finset.card_singleton] at hcard
    omega

theorem mem_reachSet_self (E : Nat → Nat → Bool) (M : Nat) (u : Nat) :
    u ∈ reachSet E M u := by
  have : ({u} : Finset Nat) ⊆ (stepR E M)^[M] {u} := by
    have := iterate_stepR_subset_of_le E M ({u} : Finset Nat) (Nat.zero_le M)
    simpa using this
  exact this (Finset.mem_singleton_self u)

theorem reachSet_subset_range (E : Nat → Nat → Bool) (M : Nat) {u : Nat}
    (hu : u < M) : reachSet E M u ⊆ Finset.range M := by
  apply iterate_stepR_subset_range
  simpa using hu

theorem mem_reachSet_step (E : Nat → Nat → Bool) (M : Nat) {u a b : Nat}
    (hu : u < M) (ha : a ∈ reachSet E M u) (hb : b < M) (he : E a b = true) :
    b ∈ reachSet E M u := by
  have : b ∈ stepR E M (reachSet E M u) := by
    unfold stepR
    apply Finset.mem_union_right
    rw [Finset.mem_filter]
    exact ⟨Finset.mem_range.mpr hb, a, ha, he⟩
  rwa [stepR_reachSet E M hu] at this

/-- Iterates past the stabilization point all equal `reachSet`. -/
theorem iterate_stepR_subset_reachSet (E : Nat → Nat → Bool) (M : Nat)
    {u : Nat} (hu : u < M) (k : Nat) :
    (stepR E M)^[k] ({u} : Finset Nat) ⊆ reachSet E M u := by
  rcases Nat.le_total k M with h | h
  · exact iterate_stepR_subset_of_le E M _ h
  · have hfix := stepR_reachSet E M hu
    have : (stepR E M)^[k] ({u} : Finset Nat) = reachSet E M u := by
      have hk : k = (k - M) + M := by omega
      rw [hk, Function.iterate_add_apply]
      exact Function.iterate_fixed hfix (k - M)
    rw [this]

/-- Induction principle for reachability: a property holding at `u` and
preserved along edges holds on all of `reachSet E M u`. -/
theorem reachSet_induction (E : Nat → Nat → Bool) (M : Nat) {u : Nat}
    (hu : u < M) (P : Nat → Prop) (hbase : P u)
    (hstep : ∀ a b, a ∈ reachSet E M u → P a → E a b = true → P b) :
    ∀ v ∈ reachSet E M u, P v := by
  have main : ∀ k, ∀ v ∈ (stepR E M)^[k] ({u} : Finset Nat), P v := by
    intro k
    induction k with
    | zero =>
        intro v hv
        simp only [Function.iterate_zero_apply, Finset.mem_singleton] at hv
        subst hv; exact hbase
    | succ k ih =>
        intro v hv
        rw [Function.iterate_succ_apply'] at hv
        unfold stepR at hv
        rcases Finset.mem_union.mp hv with hv | hv
        · exact ih v hv
        · rw [Finset.mem_filter] at hv
          rcases hv with ⟨_, a, ha, he⟩
          exact hstep a v (iterate_stepR_subset_reachSet E M hu k ha) (ih a ha) he
  exact main M

theorem mem_reachSet_trans (E : Nat → Nat → Bool) (M : Nat) {u v w : Nat}
    (hu : u < M) (hE : ∀ x y, E x y = true → y < M)
    (hv : v ∈ reachSet E M u) (hw : w ∈ reachSet E M v) :
    w ∈ reachSet E M u := by
  have hvM : v < M := by
    have := reachSet_subset_range E M hu hv
    simpa using this
  refine reachSet_induction E M hvM (fun x => x ∈ reachSet E M u) hv ?_ w hw
  intro a b _ ha he
  exact mem_reachSet_step E M hu ha (hE a b he) he

theorem mem_reachSet_edge (E : Nat → Nat → Bool) (M : Nat) {a b : Nat}
    (hb : b < M) (he : E a b = true) : b ∈ reachSet E M a := by
  have h1 : b ∈ stepR E M ({a} : Finset Nat) := by
    unfold stepR
    apply Finset.mem_union_right
    rw [Finset.mem_filter]
    exact ⟨Finset.mem_range.mpr hb, a, Finset.mem_singleton_self a, he⟩
  have h2 : stepR E M ({a} : Finset Nat) = (stepR E M)^[1] {a} := by simp
  have hM : 1 ≤ M := Nat.one_le_iff_ne_zero.mpr (by omega)
  have := iterate_stepR_subset_of_le E M ({a} : Finset Nat) hM
  rw [h2] at h1
  exact this h1

/-! ### Strongly connected components of the row graph -/

variable (mat : SpMat) (m : List (Nat × Nat))

/-- Mutual reachability in the row graph: the equivalence whose classes
`strongly_connected_components` returns. -/
def scc (u v : Nat) : Prop :=
  v ∈ reachSet (dgE mat m) mat.M u ∧ u ∈ reachSet (dgE mat m) mat.M v

instance (u v : Nat) : Decidable (scc mat m u v) := by
  unfold scc; exact inferInstance

theorem dgE_lt {u v : Nat} (h : dgE mat m u v = true) : u < mat.M ∧ v < mat.M := by
  unfold dgE at h
  have h2 := of_decide_eq_true h
  rw [mem_dgEdges] at h2
  exact ⟨h2.1, h2.2.1⟩

theorem scc_refl (u : Nat) : scc mat m u u :=
  ⟨mem_reachSet_self _ _ u, mem_reachSet_self _ _ u⟩

theorem scc_symm {u v : Nat} (h : scc mat m u v) : scc mat m v u :=
  ⟨h.2, h.1⟩

theorem scc_lt {u v : Nat} (hu : u < mat.M) (h : scc mat m u v) : v < mat.M := by
  have := reachSet_subset_range (dgE mat m) mat.M hu h.1
  simpa using this

theorem scc_trans {u v w : Nat} (hu : u < mat.M)
    (h1 : scc mat m u v) (h2 : scc mat m v w) : scc mat m u w := by
  have hv : v < mat.M := scc_lt mat m hu h1
  have hw : w < mat.M := scc_lt mat m hv h2
  have hE : ∀ x y, dgE mat m x y = true → y < mat.M := fun x y h => (dgE_lt mat m h).2
  exact ⟨mem_reachSet_trans _ _ hu hE h1.1 h2.1,
         mem_reachSet_trans _ _ hw hE h2.2 h1.2⟩

/-- Canonical representative of `u`'s SCC: its smallest member.  The SCC
enumeration of the library is modelled through these representatives. -/
def sccRepr (u : Nat) : Nat :=
  ((List.range mat.M).find? (fun v => decide (scc mat m u v))).getD u

theorem scc_sccRepr {u : Nat} (hu : u < mat.M) : scc mat m u (sccRepr mat m u) := by
  unfold sccRepr
  cases hfind : (List.range mat.M).find? (fun v => decide (scc mat m u v)) with
  | none =>
      rw [List.find?_eq_none] at hfind
      exact absurd (scc_refl mat m u)
        (by simpa using hfind u (List.mem_range.mpr hu))
  | some r =>
      have hp := List.find?_some hfind
      simp only [decide_eq_true_eq] at hp
      simpa using hp

theorem sccRepr_lt {u : Nat} (hu : u < mat.M) : sccRepr mat m u < mat.M := by
  unfold sccRepr
  cases hfind : (List.range mat.M).find? (fun v => decide (scc mat m u v)) with
  | none => simpa using hu
  | some r =>
      have := List.mem_of_find?_eq_some hfind
      simpa using this

theorem sccRepr_eq_of_scc {u v : Nat} (hu : u < mat.M) (h : scc mat m u v) :
    sccRepr mat m u = sccRepr mat m v := by
  have hv : v < mat.M := scc_lt mat m hu h
  unfold sccRepr
  have hpred : (fun w => decide (scc mat m u w)) = (fun w => decide (scc mat m v w)) := by
    funext w
    apply decide_eq_decide.mpr
    constructor
    · intro hw; exact scc_trans mat m hv (scc_symm mat m h) hw
    · intro hw; exact scc_trans mat m hu h hw
  rw [hpred]
  cases hfind : (List.range mat.M).find? (fun w => decide (scc mat m v w)) with
  | none =>
      rw [List.find?_eq_none] at hfind
      exact absurd (scc_refl mat m v)
        (by simpa using hfind v (List.mem_range.mpr hv))
  | some r => rfl

theorem sccRepr_idem {u : Nat} (hu : u < mat.M) :
    sccRepr mat m (sccRepr mat m u) = sccRepr mat m u :=
  (sccRepr_eq_of_scc mat m hu (scc_sccRepr mat m hu)).symm

theorem scc_of_sccRepr_eq {u v : Nat} (hu : u < mat.M) (hv : v < mat.M)
    (h : sccRepr mat m u = sccRepr mat m v) : scc mat m u v := by
  have h1 := scc_sccRepr mat m hu
  have h2 := scc_sccRepr mat m hv
  rw [h] at h1
  exact scc_trans mat m hu h1 (scc_symm mat m h2)

/-! ### Condensation DAG -/

/-- Condensation edge, over SCC representatives: for a row edge `(n, n2)`
(`n` towards its column's matched row `n2`), the Python loop adds the
condensation edge `(target_scc, source_scc) = (scc(n2), scc(n))` when the two
components differ. -/
def dagE (A B : Nat) : Prop :=
  A ≠ B ∧ ∃ p ∈ dgEdges mat m, sccRepr mat m p.2 = A ∧ sccRepr mat m p.1 = B

instance (A B : Nat) : Decidable (dagE mat m A B) := by
  unfold dagE; exact inferInstance

/-- Boolean form of the condensation edge. -/
def dagEB (A B : Nat) : Bool := decide (dagE mat m A B)

theorem dagE_facts {A B : Nat} (h : dagE mat m A B) :
    A < mat.M ∧ B < mat.M ∧ sccRepr mat m A = A ∧ sccRepr mat m B = B ∧ A ≠ B := by
  rcases h with ⟨hne, p, hp, hA, hB⟩
  have hmem := (mem_dgEdges mat m p.1 p.2).mp hp
  have h1 : p.1 < mat.M := hmem.1
  have h2 : p.2 < mat.M := hmem.2.1
  refine ⟨?_, ?_, ?_, ?_, hne⟩
  · rw [← hA]; exact sccRepr_lt mat m h2
  · rw [← hB]; exact sccRepr_lt mat m h1
  · rw [← hA]; exact sccRepr_idem mat m h2
  · rw [← hB]; exact sccRepr_idem mat m h1

/-- A condensation edge `A → B` witnesses row-graph reachability from (a node
of) component `B` to (a node of) component `A`. -/
theorem dagE_dgReach {A B : Nat} (h : dagE mat m A B) :
    A ∈ reachSet (dgE mat m) mat.M B := by
  rcases h with ⟨hne, p, hp, hA, hB⟩
  have hmem := (mem_dgEdges mat m p.1 p.2).mp hp
  have h1 : p.1 < mat.M := hmem.1
  have h2 : p.2 < mat.M := hmem.2.1
  have hE : ∀ x y, dgE mat m x y = true → y < mat.M := fun x y hxy => (dgE_lt mat m hxy).2
  have hBlt : B < mat.M := by rw [← hB]; exact sccRepr_lt mat m h1
  -- B reaches p.1 (same component), p.1 reaches p.2 (the edge), p.2 reaches A.
  have r1 : p.1 ∈ reachSet (dgE mat m) mat.M B := by
    have := scc_sccRepr mat m h1
    rw [hB] at this
    exact this.2
  have r2 : p.2 ∈ reachSet (dgE mat m) mat.M p.1 := by
    apply mem_reachSet_edge _ _ h2
    unfold dgE
    exact decide_eq_true hp
  have r3 : A ∈ reachSet (dgE mat m) mat.M p.2 := by
    have := scc_sccRepr mat m h2
    rw [hA] at this
    exact this.1
  exact mem_reachSet_trans _ _ hBlt hE r1
    (mem_reachSet_trans _ _ h1 hE r2 r3)

theorem dagEB_lt {A B : Nat} (h : dagEB mat m A B = true) : B < mat.M :=
  (dagE_facts mat m (of_decide_eq_true h)).2.1

/-- Along any condensation-reachability chain from `A` to `C`, component `C`
row-reaches component `A`, and `C` is a representative. -/
theorem dagReach_facts {A C : Nat} (hA : A < mat.M) (hrA : sccRepr mat m A = A)
    (h : C ∈ reachSet (dagEB mat m) mat.M A) :
    C < mat.M ∧ sccRepr mat m C = C ∧ A ∈ reachSet (dgE mat m) mat.M C := by
  have hE : ∀ x y, dgE mat m x y = true → y < mat.M := fun x y hxy => (dgE_lt mat m hxy).2
  refine reachSet_induction (dagEB mat m) mat.M hA
    (fun C => C < mat.M ∧ sccRepr mat m C = C ∧ A ∈ reachSet (dgE mat m) mat.M C)
    ⟨hA, hrA, mem_reachSet_self _ _ A⟩ ?_ C h
  intro a b _ ha hab
  have hd := of_decide_eq_true hab
  have hf := dagE_facts mat m hd
  refine ⟨hf.2.1, hf.2.2.2.1, ?_⟩
  have hba : a ∈ reachSet (dgE mat m) mat.M b := dagE_dgReach mat m hd
  exact mem_reachSet_trans _ _ hf.2.1 hE hba ha.2.2

/-- Acyclicity of the condensation: two mutually condensation-reachable
representatives coincide. -/
theorem dag_no_mutual {A B : Nat} (hA : A < mat.M) (hrA : sccRepr mat m A = A)
    (hB : B < mat.M) (hrB : sccRepr mat m B = B)
    (hAB : B ∈ reachSet (dagEB mat m) mat.M A)
    (hBA : A ∈ reachSet (dagEB mat m) mat.M B) : A = B := by
  have h1 := dagReach_facts mat m hA hrA hAB
  have h2 := dagReach_facts mat m hB hrB hBA
  have hscc : scc mat m A B := ⟨h2.2.2, h1.2.2⟩
  have := sccRepr_eq_of_scc mat m hA hscc
  rw [hrA, hrB] at this
  exact this

/-! ### Block numbering

`topological_sort` may return any topological order of the condensation; it is
modelled by numbering each component with its rank under the key
(ancestor count, smallest member), which is a valid topological order. -/

/-- The set of SCC representatives: one per diagonal block. -/
def repsF : Finset Nat :=
  (Finset.range mat.M).filter (fun u => sccRepr mat m u = u)

/-- Number of diagonal blocks `B`. -/
def numBlocks : Nat := (repsF mat m).card

/-- Strict ancestors of component `B` in the condensation DAG. -/
def ancSet (B : Nat) : Finset Nat :=
  (repsF mat m).filter (fun A => A ≠ B ∧ B ∈ reachSet (dagEB mat m) mat.M A)

/-- Ancestor count of a component. -/
def anc (B : Nat) : Nat := (ancSet mat m B).card

/-- Sorting key order for the topological order of components. -/
def keyLt (A B : Nat) : Prop :=
  anc mat m A < anc mat m B ∨ (anc mat m A = anc mat m B ∧ A < B)

instance (A B : Nat) : Decidable (keyLt mat m A B) := by
  unfold keyLt; exact inferInstance

/-- Block index of a component: its rank in the chosen topological order. -/
def blockOf (A : Nat) : Nat :=
  ((repsF mat m).filter (fun B => keyLt mat m B A)).card

theorem mem_repsF {A : Nat} :
    A ∈ repsF mat m ↔ A < mat.M ∧ sccRepr mat m A = A := by
  unfold repsF
  simp [Finset.mem_filter]

theorem anc_lt_of_dagE {A B : Nat} (h : dagE mat m A B) :
    anc mat m A < anc mat m B := by
  have hf := dagE_facts mat m h
  have hAmem : A ∈ repsF mat m := (mem_repsF mat m).mpr ⟨hf.1, hf.2.2.1⟩
  have hedge : dagEB mat m A B = true := decide_eq_true h
  have hAanc : A ∈ ancSet mat m B := by
    unfold ancSet
    rw [Finset.mem_filter]
    exact ⟨hAmem, hf.2.2.2.2, mem_reachSet_edge _ _ hf.2.1 hedge⟩
  have hsub : ancSet mat m A ⊆ ancSet mat m B := by
    intro C hC
    unfold ancSet at hC ⊢
    rw [Finset.mem_filter] at hC ⊢
    rcases hC with ⟨hCrep, hCA, hCr⟩
    have hCfacts := (mem_repsF mat m).mp hCrep
    refine ⟨hCrep, ?_, ?_⟩
    · intro hCB
      subst hCB
      exact hf.2.2.2.2 (dag_no_mutual mat m hf.1 hf.2.2.1 hCfacts.1 hCfacts.2
        (mem_reachSet_edge _ _ hf.2.1 hedge) hCr)
    · exact mem_reachSet_step _ _ hCfacts.1 hCr hf.2.1 hedge
  have hAnot : A ∉ ancSet mat m A := by
    unfold ancSet
    rw [Finset.mem_filter]
    rintro ⟨-, hne, -⟩
    exact hne rfl
  have : insert A (ancSet mat m A) ⊆ ancSet mat m B :=
    Finset.insert_subset hAanc hsub
  have hcard := Finset.card_le_card this
  rw [Finset.card_insert_of_not_mem hAnot] at hcard
  unfold anc
  omega

theorem keyLt_irrefl (A : Nat) : ¬ keyLt mat m A A := by
  unfold keyLt; omega

theorem keyLt_trans {A B C : Nat} (h1 : keyLt mat m A B) (h2 : keyLt mat m B C) :
    keyLt mat m A C := by
  unfold keyLt at h1 h2 ⊢; omega

theorem keyLt_total {A B : Nat} (h : A ≠ B) :
    keyLt mat m A B ∨ keyLt mat m B A := by
  unfold keyLt
  rcases Nat.lt_trichotomy A B with h1 | h1 | h1 <;> omega

theorem blockOf_lt_of_keyLt {A B : Nat} (hA : A ∈ repsF mat m)
    (h : keyLt mat m A B) : blockOf mat m A < blockOf mat m B := by
  unfold blockOf
  apply Finset.card_lt_card
  rw [Finset.ssubset_iff_of_subset]
  · exact ⟨A, Finset.mem_filter.mpr ⟨hA, h⟩,
      fun hmem => keyLt_irrefl mat m A (Finset.mem_filter.mp hmem).2⟩
  · intro C hC
    rw [Finset.mem_filter] at hC ⊢
    exact ⟨hC.1, keyLt_trans mat m hC.2 h⟩

theorem blockOf_inj {A B : Nat} (hA : A ∈ repsF mat m) (hB : B ∈ repsF mat m)
    (h : blockOf mat m A = blockOf mat m B) : A = B := by
  by_contra hne
  rcases keyLt_total mat m hne with hk | hk
  · exact absurd h (Nat.ne_of_lt (blockOf_lt_of_keyLt mat m hA hk))
  · exact absurd h.symm (Nat.ne_of_lt (blockOf_lt_of_keyLt mat m hB hk))

theorem blockOf_lt_numBlocks {A : Nat} (hA : A ∈ repsF mat m) :
    blockOf mat m A < numBlocks mat m := by
  unfold blockOf numBlocks
  have hsub : (repsF mat m).filter (fun B => keyLt mat m B A) ⊆ (repsF mat m).erase A := by
    intro C hC
    rw [Finset.mem_filter] at hC
    rw [Finset.mem_erase]
    refine ⟨?_, hC.1⟩
    intro hCA
    subst hCA
    exact keyLt_irrefl mat m C hC.2
  have h1 := Finset.card_le_card hsub
  have h2 : ((repsF mat m).erase A).card < (repsF mat m).card :=
    Finset.card_erase_lt_of_mem hA
  omega

theorem blockOf_surj {b : Nat} (hb : b < numBlocks mat m) :
    ∃ A ∈ repsF mat m, blockOf mat m A = b := by
  have himg : (repsF mat m).image (blockOf mat m) = Finset.range (numBlocks mat m) := by
    apply Finset.eq_of_subset_of_card_le
    · intro x hx
      rw [Finset.mem_image] at hx
      rcases hx with ⟨A, hA, hAx⟩
      rw [Finset.mem_range, ← hAx]
      exact blockOf_lt_numBlocks mat m hA
    · rw [Finset.card_range]
      unfold numBlocks
      rw [Finset.card_image_of_injOn (fun A hA B hB => blockOf_inj mat m hA hB)]
  have : b ∈ (repsF mat m).image (blockOf mat m) := by
    rw [himg, Finset.mem_range]; exact hb
  rw [Finset.mem_image] at this
  rcases this with ⟨A, hA, hAb⟩
  exact ⟨A, hA, hAb⟩

/-- Block index of a row: `row_block_map[n] = scc_block_map[node_scc_map[n]]`. -/
def rowBlockFun (n : Nat) : Nat := blockOf mat m (sccRepr mat m n)

theorem rowBlockFun_lt {n : Nat} (hn : n < mat.M) :
    rowBlockFun mat m n < numBlocks mat m := by
  unfold rowBlockFun
  apply blockOf_lt_numBlocks
  rw [mem_repsF]
  exact ⟨sccRepr_lt mat m hn, sccRepr_idem mat m hn⟩

theorem rowBlockFun_eq_iff {n n2 : Nat} (hn : n < mat.M) (hn2 : n2 < mat.M) :
    (rowBlockFun mat m n = rowBlockFun mat m n2 ↔ scc mat m n n2) := by
  unfold rowBlockFun
  constructor
  · intro h
    apply scc_of_sccRepr_eq mat m hn hn2
    exact blockOf_inj mat m
      ((mem_repsF mat m).mpr ⟨sccRepr_lt mat m hn, sccRepr_idem mat m hn⟩)
      ((mem_repsF mat m).mpr ⟨sccRepr_lt mat m hn2, sccRepr_idem mat m hn2⟩) h
  · intro h
    rw [sccRepr_eq_of_scc mat m hn h]

theorem rowBlockFun_surj {b : Nat} (hb : b < numBlocks mat m) :
    ∃ n, n < mat.M ∧ rowBlockFun mat m n = b := by
  rcases blockOf_surj mat m hb with ⟨A, hA, hAb⟩
  have hf := (mem_repsF mat m).mp hA
  exact ⟨A, hf.1, by unfold rowBlockFun; rw [hf.2]; exact hAb⟩

/-! ### Dict lookup lemmas -/

theorem find?_key_unique (l : List (Nat × Nat)) (hnd : (l.map Prod.fst).Nodup)
    {r c : Nat} (hmem : (r, c) ∈ l) :
    l.find? (fun p => p.1 == r) = some (r, c) := by
  induction l with
  | nil => cases hmem
  | cons a l ih =>
      simp only [List.map_cons, List.nodup_cons] at hnd
      rcases List.mem_cons.mp hmem with heq | hmem2
      · subst heq
        simp [List.find?_cons]
      · have hne : a.1 ≠ r := by
          intro h
          exact hnd.1 (h ▸ List.mem_map_of_mem Prod.fst hmem2)
        rw [List.find?_cons_of_neg _ (by simpa using hne)]
        exact ih hnd.2 hmem2

theorem find?_val_unique (l : List (Nat × Nat)) (hnd : (l.map Prod.snd).Nodup)
    {r c : Nat} (hmem : (r, c) ∈ l) :
    l.find? (fun p => p.2 == c) = some (r, c) := by
  induction l with
  | nil => cases hmem
  | cons a l ih =>
      simp only [List.map_cons, List.nodup_cons] at hnd
      rcases List.mem_cons.mp hmem with heq | hmem2
      · subst heq
        simp [List.find?_cons]
      · have hne : a.2 ≠ c := by
          intro h
          exact hnd.1 (h ▸ List.mem_map_of_mem Prod.snd hmem2)
        rw [List.find?_cons_of_neg _ (by simpa using hne)]
        exact ih hnd.2 hmem2

theorem matchOf_eq {r c : Nat} (hpm : PerfectMatching mat m) (hmem : (r, c) ∈ m) :
    matchOf m r = c := by
  unfold matchOf
  rw [find?_key_unique m hpm.2.1 hmem]
  rfl

theorem colRow_eq {r c : Nat} (hpm : PerfectMatching mat m) (hmem : (r, c) ∈ m) :
    colRow m c = r := by
  unfold colRow
  have hnd : (m.reverse.map Prod.snd).Nodup := by
    rw [List.map_reverse]
    exact List.nodup_reverse.mpr hpm.2.2.1
  rw [find?_val_unique m.reverse hnd (List.mem_reverse.mpr hmem)]
  rfl

/-- Every row of `[0, M)` is a key of a perfect matching. -/
theorem matching_key_cover (hpm : PerfectMatching mat m) {r : Nat} (hr : r < mat.M) :
    ∃ c, (r, c) ∈ m ∧ c < mat.N := by
  have hkeys : (m.map Prod.fst).toFinset = Finset.range mat.M := by
    apply Finset.eq_of_subset_of_card_le
    · intro x hx
      rw [List.mem_toFinset] at hx
      rcases List.mem_map.mp hx with ⟨p, hp, hx2⟩
      rw [Finset.mem_range, ← hx2]
      exact ((hpm.2.2.2 p hp).1)
    · rw [Finset.card_range, List.toFinset_card_of_nodup hpm.2.1,
        List.length_map, hpm.1]
  have : r ∈ (m.map Prod.fst).toFinset := by
    rw [hkeys, Finset.mem_range]; exact hr
  rw [List.mem_toFinset] at this
  rcases List.mem_map.mp this with ⟨p, hp, hp1⟩
  exact ⟨p.2, by rw [← hp1]; exact hp, (hpm.2.2.2 p hp).2⟩

/-- For a square structure, every column of `[0, N)` is a value of a perfect
matching. -/
theorem matching_val_cover (hMN : mat.M = mat.N) (hpm : PerfectMatching mat m)
    {c : Nat} (hc : c < mat.N) : ∃ r, (r, c) ∈ m ∧ r < mat.M := by
  have hvals : (m.map Prod.snd).toFinset = Finset.range mat.N := by
    apply Finset.eq_of_subset_of_card_le
    · intro x hx
      rw [List.mem_toFinset] at hx
      rcases List.mem_map.mp hx with ⟨p, hp, hx2⟩
      rw [Finset.mem_range, ← hx2]
      exact ((hpm.2.2.2 p hp).2)
    · rw [Finset.card_range, List.toFinset_card_of_nodup hpm.2.2.1,
        List.length_map, hpm.1, hMN]
  have : c ∈ (m.map Prod.snd).toFinset := by
    rw [hvals, Finset.mem_range]; exact hc
  rw [List.mem_toFinset] at this
  rcases List.mem_map.mp this with ⟨p, hp, hp2⟩
  exact ⟨p.1, by rw [← hp2]; exact hp, (hpm.2.2.2 p hp).1⟩

theorem matchOf_lt (hpm : PerfectMatching mat m) {r : Nat} (hr : r < mat.M) :
    matchOf m r < mat.N := by
  rcases matching_key_cover mat m hpm hr with ⟨c, hmem, hc⟩
  rw [matchOf_eq mat m hpm hmem]
  exact hc

theorem colRow_matchOf (hpm : PerfectMatching mat m) {r : Nat} (hr : r < mat.M) :
    colRow m (matchOf m r) = r := by
  rcases matching_key_cover mat m hpm hr with ⟨c, hmem, -⟩
  rw [matchOf_eq mat m hpm hmem]
  exact colRow_eq mat m hpm hmem

theorem colRow_lt (hMN : mat.M = mat.N) (hpm : PerfectMatching mat m)
    {c : Nat} (hc : c < mat.N) : colRow m c < mat.M := by
  rcases matching_val_cover mat m hMN hpm hc with ⟨r, hmem, hr⟩
  rw [colRow_eq mat m hpm hmem]
  exact hr

theorem matchOf_colRow (hMN : mat.M = mat.N) (hpm : PerfectMatching mat m)
    {c : Nat} (hc : c < mat.N) : matchOf m (colRow m c) = c := by
  rcases matching_val_cover mat m hMN hpm hc with ⟨r, hmem, -⟩
  rw [colRow_eq mat m hpm hmem]
  exact matchOf_eq mat m hpm hmem

theorem matchOf_inj (hpm : PerfectMatching mat m) {r1 r2 : Nat}
    (h1 : r1 < mat.M) (h2 : r2 < mat.M) (h : matchOf m r1 = matchOf m r2) :
    r1 = r2 := by
  rcases matching_key_cover mat m hpm h1 with ⟨c1, hm1, -⟩
  rcases matching_key_cover mat m hpm h2 with ⟨c2, hm2, -⟩
  rw [matchOf_eq mat m hpm hm1, matchOf_eq mat m hpm hm2] at h
  subst h
  have := List.inj_on_of_nodup_map hpm.2.2.1 hm1 hm2 rfl
  exact congrArg Prod.fst this

theorem dictGet_mkDict (f : Nat → Nat) {n k : Nat} (hk : k < n) :
    dictGet (mkDict f n) k = f k := by
  unfold dictGet mkDict
  have hnd : ((List.range n).map (fun j => (j, f j))).map Prod.fst = List.range n := by
    rw [List.map_map]
    exact List.map_id _
  have hmem : (k, f k) ∈ (List.range n).map (fun j => (j, f j)) :=
    List.mem_map_of_mem _ (List.mem_range.mpr hk)
  rw [find?_key_unique _ (by rw [hnd]; exact List.nodup_range n) hmem]
  rfl

/-! ### Result assembly -/

/-- Block adjacency at block indices: the condensation edges renumbered by the
topological order, which is what `dag_ll` stores. -/
def blockAdj (b b2 : Nat) : Prop :=
  ∃ A ∈ repsF mat m, ∃ B ∈ repsF mat m,
    blockOf mat m A = b ∧ blockOf mat m B = b2 ∧ dagE mat m A B

instance (b b2 : Nat) : Decidable (blockAdj mat m b b2) := by
  unfold blockAdj; exact inferInstance

/-- The list `dag_ll = [[scc_block_map[j] for j in dag[i]] for i in scc_order]`:
entry `b` lists the block indices of the condensation successors of the block
in position `b` of the topological order. -/
def dagList : List (List Nat) :=
  (List.range (numBlocks mat m)).map
    (fun b => (List.range (numBlocks mat m)).filter
      (fun b2 => decide (blockAdj mat m b b2)))

/-- The triple returned by `block_triangularize`. -/
structure BTResult where
  row_block_map : List (Nat × Nat)
  col_block_map : List (Nat × Nat)
  dag_ll : List (List Nat)
deriving DecidableEq

/-- The assembled result on the success path:
`row_block_map = {n: scc_block_map[node_scc_map[n]] for n in range(M)}`,
`col_block_map = {c: row_block_map[col_row_map[c]] for c in range(N)}`,
plus `dag_ll`. -/
def btResult : BTResult where
  row_block_map := mkDict (rowBlockFun mat m) mat.M
  col_block_map := mkDict (fun c => rowBlockFun mat m (colRow m c)) mat.N
  dag_ll := dagList mat m

/-- `block_triangularize(matrix, matching=None)`.

`mm` models the external `maximum_matching` routine imported from the
incidence-analysis library; it is consulted exactly when no matching is
supplied, as in the source.  Failures are returned as `Except.error`:
the two `raise ValueError` statements and the `assert len(col_row_map) == M`. -/
def block_triangularize (mm : SpMat → List (Nat × Nat)) (matrix : SpMat)
    (matching : Option (List (Nat × Nat))) : Except PyExc BTResult :=
  if matrix.M ≠ matrix.N then
    .error (.valueError (nonSquareMsg matrix.M matrix.N))
  else
    let m0 := matching.getD (mm matrix)
    if m0.length ≠ matrix.M then
      .error (.valueError (incompleteMsg m0.length))
    else if ((m0.map Prod.snd).dedup).length ≠ matrix.M then
      .error .assertionError
    else
      .ok (btResult matrix m0)

/-- The exception class of a finished call, if it failed. -/
def errClass : Except PyExc BTResult → Option PyExcClass
  | .error e => some e.cls
  | .ok _ => none

/-- On a square structure with a perfect matching, every check passes and the
assembled result is returned. -/
theorem block_triangularize_ok (mm : SpMat → List (Nat × Nat))
    (hMN : mat.M = mat.N) (hpm : PerfectMatching mat m) :
    block_triangularize mm mat (some m) = .ok (btResult mat m) := by
  unfold block_triangularize
  rw [if_neg (by omega)]
  simp only [Option.getD_some]
  rw [if_neg (by simp [hpm.1]), if_neg ?hdedup]
  case hdedup =>
    rw [List.dedup_eq_self.mpr hpm.2.2.1, List.length_map, hpm.1]
    simp

/-! ### Core correctness lemmas -/

/-- A nonzero entry away from the matched column induces a row-graph edge from
the row to the column's owner. -/
theorem dgEdge_of_entry (hMN : mat.M = mat.N) (hpm : PerfectMatching mat m)
    {row col : Nat} (hrow : row < mat.M) (hcol : col < mat.N)
    (hnz : mat.nz row col = true) (hne : col ≠ matchOf m row) :
    (row, colRow m col) ∈ dgEdges mat m := by
  have hv : colRow m col < mat.M := colRow_lt mat m hMN hpm hcol
  have hvm : matchOf m (colRow m col) = col := matchOf_colRow mat m hMN hpm hcol
  rw [mem_dgEdges]
  refine ⟨hrow, hv, ?_, by rw [hvm]; exact hnz⟩
  intro h
  rw [← h] at hvm
  exact hne hvm.symm

/-- Block-lower-triangular core: the block of a referenced foreign column never
exceeds the block of the referencing row. -/
theorem rowBlock_core_le (hMN : mat.M = mat.N) (hpm : PerfectMatching mat m)
    {row col : Nat} (hrow : row < mat.M) (hcol : col < mat.N)
    (hnz : mat.nz row col = true) (hne : col ≠ matchOf m row) :
    rowBlockFun mat m (colRow m col) ≤ rowBlockFun mat m row := by
  have hv : colRow m col < mat.M := colRow_lt mat m hMN hpm hcol
  have hedge := dgEdge_of_entry mat m hMN hpm hrow hcol hnz hne
  rcases eq_or_ne (sccRepr mat m (colRow m col)) (sccRepr mat m row) with heq | hne2
  · unfold rowBlockFun
    rw [heq]
  · have hdag : dagE mat m (sccRepr mat m (colRow m col)) (sccRepr mat m row) :=
      ⟨hne2, (row, colRow m col), hedge, rfl, rfl⟩
    have hkey : keyLt mat m (sccRepr mat m (colRow m col)) (sccRepr mat m row) :=
      Or.inl (anc_lt_of_dagE mat m hdag)
    have hmem : sccRepr mat m (colRow m col) ∈ repsF mat m :=
      (mem_repsF mat m).mpr ⟨sccRepr_lt mat m hv, sccRepr_idem mat m hv⟩
    exact Nat.le_of_lt (blockOf_lt_of_keyLt mat m hmem hkey)

/-- Node-level characterization of the block adjacency. -/
theorem blockAdj_iff_nodes (b b2 : Nat) :
    blockAdj mat m b b2 ↔
      ∃ n n2 : Nat, (n, n2) ∈ dgEdges mat m ∧
        sccRepr mat m n2 ≠ sccRepr mat m n ∧
        rowBlockFun mat m n2 = b ∧ rowBlockFun mat m n = b2 := by
  constructor
  · rintro ⟨A, hA, B, hB, hbA, hbB, hdag⟩
    rcases hdag with ⟨hne, p, hp, hpA, hpB⟩
    refine ⟨p.1, p.2, by simpa using hp, ?_, ?_, ?_⟩
    · rw [hpA, hpB]; exact hne
    · unfold rowBlockFun; rw [hpA]; exact hbA
    · unfold rowBlockFun; rw [hpB]; exact hbB
  · rintro ⟨n, n2, hp, hne, hb, hb2⟩
    have hmem := (mem_dgEdges mat m n n2).mp hp
    refine ⟨sccRepr mat m n2,
      (mem_repsF mat m).mpr ⟨sccRepr_lt mat m hmem.2.1, sccRepr_idem mat m hmem.2.1⟩,
      sccRepr mat m n,
      (mem_repsF mat m).mpr ⟨sccRepr_lt mat m hmem.1, sccRepr_idem mat m hmem.1⟩,
      hb, hb2, hne, (n, n2), hp, rfl, rfl⟩

/-- Any block adjacency strictly increases the block index. -/
theorem blockAdj_lt {b b2 : Nat} (h : blockAdj mat m b b2) : b < b2 := by
  rcases h with ⟨A, hA, B, hB, hbA, hbB, hdag⟩
  rw [← hbA, ← hbB]
  exact blockOf_lt_of_keyLt mat m hA (Or.inl (anc_lt_of_dagE mat m hdag))

/-- Membership in the returned `dag_ll`. -/
theorem mem_dagList (b b2 : Nat) :
    b2 ∈ (dagList mat m).getD b [] ↔
      b < numBlocks mat m ∧ b2 < numBlocks mat m ∧ blockAdj mat m b b2 := by
  unfold dagList
  rcases Nat.lt_or_ge b (numBlocks mat m) with hb | hb
  · have hgd :
        ((List.range (numBlocks mat m)).map
          (fun b3 => (List.range (numBlocks mat m)).filter
            (fun b4 => decide (blockAdj mat m b3 b4)))).getD b [] =
          (List.range (numBlocks mat m)).filter
            (fun b4 => decide (blockAdj mat m b b4)) := by
      rw [List.getD_eq_getElem?_getD, List.getElem?_map, List.getElem?_range hb]
      rfl
    rw [hgd, List.mem_filter, List.mem_range, decide_eq_true_eq]
    constructor
    · rintro ⟨h1, h2⟩; exact ⟨hb, h1, h2⟩
    · rintro ⟨-, h1, h2⟩; exact ⟨h1, h2⟩
  · have hgd :
        ((List.range (numBlocks mat m)).map
          (fun b3 => (List.range (numBlocks mat m)).filter
            (fun b4 => decide (blockAdj mat m b3 b4)))).getD b [] = [] := by
      rw [List.getD_eq_getElem?_getD]
      rw [List.getElem?_eq_none (by simpa using hb)]
      rfl
    rw [hgd]
    simp only [List.not_mem_nil, false_iff]
    rintro ⟨h1, -⟩
    omega

theorem row_block_map_get {n : Nat} (hn : n < mat.M) :
    dictGet (btResult mat m).row_block_map n = rowBlockFun mat m n := by
  unfold btResult
  exact dictGet_mkDict _ hn

theorem col_block_map_get {c : Nat} (hc : c < mat.N) :
    dictGet (btResult mat m).col_block_map c = rowBlockFun mat m (colRow m c) := by
  unfold btResult
  exact dictGet_mkDict _ hc

theorem mkDict_keys (f : Nat → Nat) (n : Nat) :
    (mkDict f n).map Prod.fst = List.range n := by
  unfold mkDict
  rw [List.map_map]
  exact List.map_id _

theorem btResult_eq_of_run (mm : SpMat → List (Nat × Nat)) {r : BTResult}
    (hMN : mat.M = mat.N) (hpm : PerfectMatching mat m)
    (hrun : block_triangularize mm mat (some m) = Except.ok r) :
    r = btResult mat m := by
  have heq := block_triangularize_ok mat m mm hMN hpm
  exact (Except.ok.inj (heq.symm.trans hrun)).symm

/-! ### Claims -/

/-- C1: for every square incidence matrix with a perfect matching, the maps
returned by `block_triangularize` satisfy the block-lower-triangular property:
for every nonzero entry `(row, col)` with `col` not the row's matched column,
`col_block_map[col] ≤ row_block_map[row]`. -/
theorem claim_C1 (mm : SpMat → List (Nat × Nat)) (r : BTResult)
    (hMN : mat.M = mat.N) (hpm : PerfectMatching mat m)
    (hrun : block_triangularize mm mat (some m) = Except.ok r)
    (row col : Nat) (hrow : row < mat.M) (hcol : col < mat.N)
    (hnz : mat.nz row col = true) (hne : col ≠ matchOf m row) :
    dictGet r.col_block_map col ≤ dictGet r.row_block_map row := by
  have hr := btResult_eq_of_run mat m mm hMN hpm hrun
  subst hr
  rw [col_block_map_get mat m hcol, row_block_map_get mat m hrow]
  exact rowBlock_core_le mat m hMN hpm hrow hcol hnz hne

theorem claim_C1_witness :
    dictGet (btResult (SpMat.mk 2 2 (fun i j => decide (j ≤ i)))
      [(0, 0), (1, 1)]).col_block_map 0 ≤
    dictGet (btResult (SpMat.mk 2 2 (fun i j => decide (j ≤ i)))
      [(0, 0), (1, 1)]).row_block_map 1 :=
  claim_C1 (SpMat.mk 2 2 (fun i j => decide (j ≤ i))) [(0, 0), (1, 1)]
    (fun _ => []) _ rfl (by decide) rfl 1 0 (by decide) (by decide)
    (by decide) (by decide)

/-- C2 (amended): `dag_ll` maps each block index `b` to exactly the set of
block indices `b2` that depend on `b` — the blocks owning a row with a nonzero
entry in a column of block `b` other than the row's own matched column, i.e.
the blocks that must be solved after `b`; it is not the list of blocks `b`
depends on. -/
theorem claim_C2 (mm : SpMat → List (Nat × Nat)) (r : BTResult)
    (hMN : mat.M = mat.N) (hpm : PerfectMatching mat m)
    (hrun : block_triangularize mm mat (some m) = Except.ok r)
    (b b2 : Nat) :
    b2 ∈ r.dag_ll.getD b [] ↔
      (b ≠ b2 ∧ ∃ row col : Nat, row < mat.M ∧ col < mat.N ∧
        mat.nz row col = true ∧ col ≠ matchOf m row ∧
        dictGet r.row_block_map row = b2 ∧ dictGet r.col_block_map col = b) := by
  have hr := btResult_eq_of_run mat m mm hMN hpm hrun
  subst hr
  show b2 ∈ (dagList mat m).getD b [] ↔ _
  rw [mem_dagList]
  constructor
  · rintro ⟨hb, hb2, hadj⟩
    rcases (blockAdj_iff_nodes mat m b b2).mp hadj with ⟨n, n2, hp, hne, hbn2, hbn⟩
    have hmem := (mem_dgEdges mat m n n2).mp hp
    have hn : n < mat.M := hmem.1
    have hn2 : n2 < mat.M := hmem.2.1
    have hcol : matchOf m n2 < mat.N := matchOf_lt mat m hpm hn2
    constructor
    · intro hbb
      subst hbb
      exact hne (sccRepr_eq_of_scc mat m hn2
        ((rowBlockFun_eq_iff mat m hn2 hn).mp (hbn2.trans hbn.symm)))
    · refine ⟨n, matchOf m n2, hn, hcol, hmem.2.2.2, ?_, ?_, ?_⟩
      · intro h
        exact hmem.2.2.1 (matchOf_inj mat m hpm hn2 hn h).symm
      · rw [row_block_map_get mat m hn]; exact hbn
      · rw [col_block_map_get mat m hcol, colRow_matchOf mat m hpm hn2]
        exact hbn2
  · rintro ⟨hne, row, col, hrow, hcol, hnz, hcne, hbrow, hbcol⟩
    rw [row_block_map_get mat m hrow] at hbrow
    rw [col_block_map_get mat m hcol] at hbcol
    have hv : colRow m col < mat.M := colRow_lt mat m hMN hpm hcol
    have hadj : blockAdj mat m b b2 := by
      rw [blockAdj_iff_nodes]
      refine ⟨row, colRow m col, dgEdge_of_entry mat m hMN hpm hrow hcol hnz hcne,
        ?_, hbcol, hbrow⟩
      intro h
      exact hne ((hbcol.symm.trans ((rowBlockFun_eq_iff mat m hv hrow).mpr
        (scc_of_sccRepr_eq mat m hv hrow h))).trans hbrow)
    exact ⟨hbcol ▸ rowBlockFun_lt mat m hv, hbrow ▸ rowBlockFun_lt mat m hrow, hadj⟩

theorem claim_C2_witness :
    (1 ∈ (btResult (SpMat.mk 2 2 (fun i j => decide (j ≤ i)))
        [(0, 0), (1, 1)]).dag_ll.getD 0 []) ↔
      (0 ≠ 1 ∧ ∃ row col : Nat, row < 2 ∧ col < 2 ∧
        (SpMat.mk 2 2 (fun i j => decide (j ≤ i))).nz row col = true ∧
        col ≠ matchOf [(0, 0), (1, 1)] row ∧
        dictGet (btResult (SpMat.mk 2 2 (fun i j => decide (j ≤ i)))
          [(0, 0), (1, 1)]).row_block_map row = 1 ∧
        dictGet (btResult (SpMat.mk 2 2 (fun i j => decide (j ≤ i)))
          [(0, 0), (1, 1)]).col_block_map col = 0) :=
  claim_C2 (SpMat.mk 2 2 (fun i j => decide (j ≤ i))) [(0, 0), (1, 1)]
    (fun _ => []) _ rfl (by decide) rfl 0 1

/-- C2 counterexample: on the lower-triangular 2×2 structure with the identity
matching, block 1 (row 1) depends on block 0 (it references column 0, owned by
block 0, away from its matched column 1), yet `dag_ll[1] = []`; instead
`dag_ll[0] = [1]`: the returned adjacency lists dependents, not dependencies. -/
theorem claim_C2_counterexample :
    block_triangularize (fun _ => []) (SpMat.mk 2 2 (fun i j => decide (j ≤ i)))
        (some [(0, 0), (1, 1)]) =
      Except.ok (btResult (SpMat.mk 2 2 (fun i j => decide (j ≤ i))) [(0, 0), (1, 1)]) ∧
    (SpMat.mk 2 2 (fun i j => decide (j ≤ i))).nz 1 0 = true ∧
    matchOf [(0, 0), (1, 1)] 1 = 1 ∧
    dictGet (btResult (SpMat.mk 2 2 (fun i j => decide (j ≤ i)))
      [(0, 0), (1, 1)]).row_block_map 1 = 1 ∧
    dictGet (btResult (SpMat.mk 2 2 (fun i j => decide (j ≤ i)))
      [(0, 0), (1, 1)]).col_block_map 0 = 0 ∧
    (btResult (SpMat.mk 2 2 (fun i j => decide (j ≤ i)))
      [(0, 0), (1, 1)]).dag_ll.getD 1 [] = [] ∧
    (btResult (SpMat.mk 2 2 (fun i j => decide (j ≤ i)))
      [(0, 0), (1, 1)]).dag_ll.getD 0 [] = [1] := by
  refine ⟨rfl, ?_, ?_, ?_, ?_, ?_, ?_⟩ <;> decide

/-- C3: on a square structure with a perfect matching the returned maps are
total: `row_block_map` has each row of `[0, M)` as key exactly once,
`col_block_map` has each column of `[0, N)` as key exactly once, and
`col_block_map[matching[row]] = row_block_map[row]` for every row. -/
theorem claim_C3 (mm : SpMat → List (Nat × Nat)) (r : BTResult)
    (hMN : mat.M = mat.N) (hpm : PerfectMatching mat m)
    (hrun : block_triangularize mm mat (some m) = Except.ok r) :
    r.row_block_map.map Prod.fst = List.range mat.M ∧
    r.col_block_map.map Prod.fst = List.range mat.N ∧
    ∀ row : Nat, row < mat.M →
      dictGet r.col_block_map (matchOf m row) = dictGet r.row_block_map row := by
  have hr := btResult_eq_of_run mat m mm hMN hpm hrun
  subst hr
  refine ⟨mkDict_keys _ _, mkDict_keys _ _, ?_⟩
  intro row hrow
  rw [row_block_map_get mat m hrow,
    col_block_map_get mat m (matchOf_lt mat m hpm hrow),
    colRow_matchOf mat m hpm hrow]

theorem claim_C3_witness :
    (btResult (SpMat.mk 2 2 (fun i j => decide (j ≤ i)))
      [(0, 0), (1, 1)]).row_block_map.map Prod.fst = List.range 2 ∧
    (btResult (SpMat.mk 2 2 (fun i j => decide (j ≤ i)))
      [(0, 0), (1, 1)]).col_block_map.map Prod.fst = List.range 2 ∧
    ∀ row : Nat, row < 2 →
      dictGet (btResult (SpMat.mk 2 2 (fun i j => decide (j ≤ i)))
        [(0, 0), (1, 1)]).col_block_map (matchOf [(0, 0), (1, 1)] row) =
      dictGet (btResult (SpMat.mk 2 2 (fun i j => decide (j ≤ i)))
        [(0, 0), (1, 1)]).row_block_map row :=
  claim_C3 (SpMat.mk 2 2 (fun i j => decide (j ≤ i))) [(0, 0), (1, 1)]
    (fun _ => []) _ rfl (by decide) rfl

/-- C4: the returned block dependency structure is acyclic: any nonempty chain
of adjacencies strictly increases the block index, so no chain returns to its
start. -/
theorem claim_C4 (mm : SpMat → List (Nat × Nat)) (r : BTResult)
    (hMN : mat.M = mat.N) (hpm : PerfectMatching mat m)
    (hrun : block_triangularize mm mat (some m) = Except.ok r)
    (b b2 : Nat)
    (hchain : Relation.TransGen (fun x y => y ∈ r.dag_ll.getD x []) b b2) :
    b < b2 := by
  have hr := btResult_eq_of_run mat m mm hMN hpm hrun
  subst hr
  induction hchain with
  | single h => exact blockAdj_lt mat m ((mem_dagList mat m _ _).mp h).2.2
  | tail hprev hstep ih =>
      exact Nat.lt_trans ih (blockAdj_lt mat m ((mem_dagList mat m _ _).mp hstep).2.2)

theorem claim_C4_witness : (0 : Nat) < 1 :=
  claim_C4 (SpMat.mk 2 2 (fun i j => decide (j ≤ i))) [(0, 0), (1, 1)]
    (fun _ => []) _ rfl (by decide) rfl 0 1
    (Relation.TransGen.single (by decide))

/-- C5: the internal directed row graph has an edge `(u, v)` iff `u ≠ v` and
the matrix entry `(u, matching[v])` is nonzero (row indices in range). -/
theorem claim_C5 (hMN : mat.M = mat.N) (hpm : PerfectMatching mat m)
    (u v : Nat) :
    (u, v) ∈ dgEdges mat m ↔
      u < mat.M ∧ v < mat.M ∧ u ≠ v ∧ mat.nz u (matchOf m v) = true :=
  mem_dgEdges mat m u v

theorem claim_C5_witness :
    ((1, 0) ∈ dgEdges (SpMat.mk 2 2 (fun i j => decide (j ≤ i))) [(0, 0), (1, 1)] ↔
      1 < 2 ∧ 0 < 2 ∧ (1 : Nat) ≠ 0 ∧
        (SpMat.mk 2 2 (fun i j => decide (j ≤ i))).nz 1
          (matchOf [(0, 0), (1, 1)] 0) = true) :=
  claim_C5 (SpMat.mk 2 2 (fun i j => decide (j ≤ i))) [(0, 0), (1, 1)]
    rfl (by decide) 1 0

/-- C7: a non-square matrix is rejected immediately: `block_triangularize`
raises the failure the spec calls ShapeError — realized in the source as the
`ValueError` with the non-square message — and returns no result. -/
theorem claim_C7 (mm : SpMat → List (Nat × Nat)) (matrix : SpMat)
    (matching : Option (List (Nat × Nat))) (h : matrix.M ≠ matrix.N) :
    block_triangularize mm matrix matching =
      Except.error (PyExc.valueError (nonSquareMsg matrix.M matrix.N)) := by
  unfold block_triangularize
  rw [if_pos h]

theorem claim_C7_witness :
    block_triangularize (fun _ => []) (SpMat.mk 2 3 (fun _ _ => true)) none =
      Except.error (PyExc.valueError (nonSquareMsg 2 3)) :=
  claim_C7 (fun _ => []) (SpMat.mk 2 3 (fun _ _ => true)) none (by decide)

/-- C8: on a square matrix, a supplied (or, when none is supplied, internally
computed) matching covering fewer than `N` rows is rejected:
`block_triangularize` raises the failure the spec calls
MatchingIncompleteError — realized as the `ValueError` with the matching
cardinality message — and returns no decomposition. -/
theorem claim_C8 (mm : SpMat → List (Nat × Nat)) (matrix : SpMat)
    (matching : Option (List (Nat × Nat))) (hMN : matrix.M = matrix.N)
    (hlen : (matching.getD (mm matrix)).length < matrix.M) :
    block_triangularize mm matrix matching =
      Except.error (PyExc.valueError
        (incompleteMsg (matching.getD (mm matrix)).length)) := by
  unfold block_triangularize
  rw [if_neg (by omega)]
  rw [if_pos (by omega)]

theorem claim_C8_witness :
    block_triangularize (fun _ => [(0, 0)]) (SpMat.mk 2 2 (fun _ _ => true)) none =
      Except.error (PyExc.valueError (incompleteMsg 1)) :=
  claim_C8 (fun _ => [(0, 0)]) (SpMat.mk 2 2 (fun _ _ => true)) none rfl
    (by decide)

/-- C9 (amended): the non-square and insufficient-matching failures are both
raised as the same structured class `ValueError` (distinguishable only by
message text), while the internal output-invariant violation is raised as the
distinct class `AssertionError`; each failure returns an error and no partial
result, and only the internal fault is structurally distinguishable from the
two input faults. -/
theorem claim_C9 (mm : SpMat → List (Nat × Nat)) (matrix : SpMat)
    (matching : Option (List (Nat × Nat))) :
    (matrix.M ≠ matrix.N →
      errClass (block_triangularize mm matrix matching) =
        some PyExcClass.valueErrorClass) ∧
    (matrix.M = matrix.N → (matching.getD (mm matrix)).length ≠ matrix.M →
      errClass (block_triangularize mm matrix matching) =
        some PyExcClass.valueErrorClass) ∧
    (matrix.M = matrix.N → (matching.getD (mm matrix)).length = matrix.M →
      ((matching.getD (mm matrix)).map Prod.snd).dedup.length ≠ matrix.M →
      block_triangularize mm matrix matching =
        Except.error PyExc.assertionError) ∧
    PyExcClass.valueErrorClass ≠ PyExcClass.assertionErrorClass := by
  refine ⟨?_, ?_, ?_, by decide⟩
  · intro h
    unfold block_triangularize
    rw [if_pos h]
    rfl
  · intro hMN hlen
    unfold block_triangularize
    rw [if_neg (by omega), if_pos hlen]
    rfl
  · intro hMN hlen hdedup
    unfold block_triangularize
    rw [if_neg (by omega), if_neg (by omega), if_pos hdedup]

theorem claim_C9_witness :
    errClass (block_triangularize (fun _ => []) (SpMat.mk 2 3 (fun _ _ => true)) none) =
      some PyExcClass.valueErrorClass ∧
    errClass (block_triangularize (fun _ => []) (SpMat.mk 2 2 (fun _ _ => true))
        (some [(0, 0)])) = some PyExcClass.valueErrorClass ∧
    block_triangularize (fun _ => []) (SpMat.mk 2 2 (fun _ _ => true))
        (some [(0, 0), (1, 0)]) = Except.error PyExc.assertionError :=
  ⟨(claim_C9 (fun _ => []) (SpMat.mk 2 3 (fun _ _ => true)) none).1 (by decide),
   (claim_C9 (fun _ => []) (SpMat.mk 2 2 (fun _ _ => true)) (some [(0, 0)])).2.1
     rfl (by decide),
   (claim_C9 (fun _ => []) (SpMat.mk 2 2 (fun _ _ => true))
     (some [(0, 0), (1, 0)])).2.2.1 rfl rfl (by decide)⟩

/-- C9 counterexample: a non-square input and an insufficient-matching input
fail with the same exception class (`ValueError`), so the three failure modes
are not three distinct structured failures — the caller cannot structurally
distinguish which of the two input errors occurred. -/
theorem claim_C9_counterexample :
    errClass (block_triangularize (fun _ => []) (SpMat.mk 2 3 (fun _ _ => true)) none) =
      errClass (block_triangularize (fun _ => []) (SpMat.mk 2 2 (fun _ _ => true))
        (some [(0, 0)])) ∧
    (SpMat.mk 2 3 (fun _ _ => true)).M ≠ (SpMat.mk 2 3 (fun _ _ => true)).N ∧
    ([(0, 0)] : List (Nat × Nat)).length < 2 := by
  refine ⟨?_, by decide, by decide⟩
  decide

/-- C10: every block index listed in `dag_ll` at position `b` is strictly
greater than `b`; iterating blocks in increasing index order therefore visits
each block before every block in its adjacency list. -/
theorem claim_C10 (mm : SpMat → List (Nat × Nat)) (r : BTResult)
    (hMN : mat.M = mat.N) (hpm : PerfectMatching mat m)
    (hrun : block_triangularize mm mat (some m) = Except.ok r)
    (b b2 : Nat) (hmem : b2 ∈ r.dag_ll.getD b []) : b < b2 := by
  have hr := btResult_eq_of_run mat m mm hMN hpm hrun
  subst hr
  exact blockAdj_lt mat m ((mem_dagList mat m b b2).mp hmem).2.2

theorem claim_C10_witness : (0 : Nat) < 1 :=
  claim_C10 (SpMat.mk 2 2 (fun i j => decide (j ≤ i))) [(0, 0), (1, 1)]
    (fun _ => []) _ rfl (by decide) rfl 0 1 (by decide)

/-! ### Relabeling invariance machinery (C6) -/

/-- A permutation of `[0, n)`, packaged with its inverse. -/
structure PermOn (n : Nat) where
  f : Nat → Nat
  g : Nat → Nat
  hf : ∀ i, i < n → f i < n
  hg : ∀ i, i < n → g i < n
  hgf : ∀ i, i < n → g (f i) = i
  hfg : ∀ i, i < n → f (g i) = i

/-- The inverse permutation. -/
def PermOn.symm {n : Nat} (σ : PermOn n) : PermOn n :=
  ⟨σ.g, σ.f, σ.hg, σ.hf, σ.hfg, σ.hgf⟩

theorem PermOn.f_inj {n : Nat} (σ : PermOn n) {i j : Nat} (hi : i < n)
    (hj : j < n) (h : σ.f i = σ.f j) : i = j := by
  have h2 := congrArg σ.g h
  rwa [σ.hgf i hi, σ.hgf j hj] at h2

/-- The incidence structure with rows relabeled by `r ↦ sInv⁻¹ r` and columns
by `c ↦ tInv⁻¹ c`: entry `(i, j)` of the relabeled structure is entry
`(sInv i, tInv j)` of the original. -/
def permMat (sInv tInv : Nat → Nat) : SpMat :=
  SpMat.mk mat.M mat.N (fun i j => mat.nz (sInv i) (tInv j))

/-- The matching relabeled consistently: entry `(r, c)` becomes `(s r, t c)`. -/
def permMatching (s t : Nat → Nat) : List (Nat × Nat) :=
  m.map (fun p => (s p.1, t p.2))

theorem permMatching_pm (σ : PermOn mat.M) (τ : PermOn mat.N)
    (hpm : PerfectMatching mat m) :
    PerfectMatching (permMat mat σ.g τ.g) (permMatching m σ.f τ.f) := by
  obtain ⟨hlen, hk, hv, hb⟩ := hpm
  refine ⟨by simpa [permMatching] using hlen, ?_, ?_, ?_⟩
  · have hkeys : (permMatching m σ.f τ.f).map Prod.fst =
        (m.map Prod.fst).map σ.f := by
      unfold permMatching
      rw [List.map_map, List.map_map]
      rfl
    rw [hkeys]
    apply List.Nodup.map_on ?_ hk
    intro x hx y hy hxy
    rcases List.mem_map.mp hx with ⟨p, hp, hpx⟩
    rcases List.mem_map.mp hy with ⟨q, hq, hqy⟩
    exact σ.f_inj (hpx ▸ (hb p hp).1) (hqy ▸ (hb q hq).1) hxy
  · have hvals : (permMatching m σ.f τ.f).map Prod.snd =
        (m.map Prod.snd).map τ.f := by
      unfold permMatching
      rw [List.map_map, List.map_map]
      rfl
    rw [hvals]
    apply List.Nodup.map_on ?_ hv
    intro x hx y hy hxy
    rcases List.mem_map.mp hx with ⟨p, hp, hpx⟩
    rcases List.mem_map.mp hy with ⟨q, hq, hqy⟩
    exact τ.f_inj (hpx ▸ (hb p hp).2) (hqy ▸ (hb q hq).2) hxy
  · rintro p hp
    rcases List.mem_map.mp hp with ⟨q, hq, hqp⟩
    rw [← hqp]
    exact ⟨σ.hf q.1 (hb q hq).1, τ.hf q.2 (hb q hq).2⟩

theorem matchOf_perm (σ : PermOn mat.M) (τ : PermOn mat.N)
    (hpm : PerfectMatching mat m) {r : Nat} (hr : r < mat.M) :
    matchOf (permMatching m σ.f τ.f) (σ.f r) = τ.f (matchOf m r) := by
  rcases matching_key_cover mat m hpm hr with ⟨c, hmem, -⟩
  have hpm2 := permMatching_pm mat m σ τ hpm
  have hmem2 : (σ.f r, τ.f c) ∈ permMatching m σ.f τ.f :=
    List.mem_map_of_mem _ hmem
  rw [matchOf_eq (permMat mat σ.g τ.g) _ hpm2 hmem2, matchOf_eq mat m hpm hmem]

theorem colRow_perm (σ : PermOn mat.M) (τ : PermOn mat.N)
    (hMN : mat.M = mat.N) (hpm : PerfectMatching mat m) {c : Nat}
    (hc : c < mat.N) :
    colRow (permMatching m σ.f τ.f) (τ.f c) = σ.f (colRow m c) := by
  rcases matching_val_cover mat m hMN hpm hc with ⟨r, hmem, -⟩
  have hpm2 := permMatching_pm mat m σ τ hpm
  have hmem2 : (σ.f r, τ.f c) ∈ permMatching m σ.f τ.f :=
    List.mem_map_of_mem _ hmem
  rw [colRow_eq (permMat mat σ.g τ.g) _ hpm2 hmem2, colRow_eq mat m hpm hmem]

theorem dgEdges_perm (σ : PermOn mat.M) (τ : PermOn mat.N)
    (hpm : PerfectMatching mat m) {u v : Nat} (hu : u < mat.M)
    (hv : v < mat.M) :
    ((σ.f u, σ.f v) ∈ dgEdges (permMat mat σ.g τ.g) (permMatching m σ.f τ.f)) ↔
      (u, v) ∈ dgEdges mat m := by
  rw [mem_dgEdges, mem_dgEdges]
  have hmv : matchOf m v < mat.N := matchOf_lt mat m hpm hv
  have h1 : matchOf (permMatching m σ.f τ.f) (σ.f v) = τ.f (matchOf m v) :=
    matchOf_perm mat m σ τ hpm hv
  rw [h1]
  have h2 : (permMat mat σ.g τ.g).nz (σ.f u) (τ.f (matchOf m v)) =
      mat.nz u (matchOf m v) := by
    show mat.nz (σ.g (σ.f u)) (τ.g (τ.f (matchOf m v))) = mat.nz u (matchOf m v)
    rw [σ.hgf u hu, τ.hgf _ hmv]
  rw [h2]
  constructor
  · rintro ⟨-, -, hne, hnz⟩
    exact ⟨hu, hv, fun h => hne (by rw [h]), hnz⟩
  · rintro ⟨-, -, hne, hnz⟩
    exact ⟨σ.hf u hu, σ.hf v hv, fun h => hne (σ.f_inj hu hv h), hnz⟩

theorem dgE_perm (σ : PermOn mat.M) (τ : PermOn mat.N)
    (hpm : PerfectMatching mat m) {u v : Nat} (hu : u < mat.M)
    (hv : v < mat.M) :
    dgE (permMat mat σ.g τ.g) (permMatching m σ.f τ.f) (σ.f u) (σ.f v) =
      dgE mat m u v := by
  unfold dgE
  exact decide_eq_decide.mpr (dgEdges_perm mat m σ τ hpm hu hv)

/-- Reachable sets transport along a graph isomorphism. -/
theorem reachSet_map (E E2 : Nat → Nat → Bool) (M : Nat) (σ : PermOn M)
    (hbound : ∀ x y, E x y = true → x < M ∧ y < M)
    (hconj : ∀ x y, x < M → y < M → E2 (σ.f x) (σ.f y) = E x y)
    {u v : Nat} (hu : u < M) (hv : v ∈ reachSet E M u) :
    σ.f v ∈ reachSet E2 M (σ.f u) := by
  refine (reachSet_induction E M hu
    (fun w => w < M ∧ σ.f w ∈ reachSet E2 M (σ.f u))
    ⟨hu, mem_reachSet_self _ _ _⟩ ?_ v hv).2
  intro a b ha hPa he
  have hab := hbound a b he
  refine ⟨hab.2, ?_⟩
  apply mem_reachSet_step E2 M (σ.hf u hu) hPa.2 (σ.hf b hab.2)
  rw [hconj a b hPa.1 hab.2]
  exact he

theorem scc_perm (σ : PermOn mat.M) (τ : PermOn mat.N)
    (hpm : PerfectMatching mat m) {u v : Nat} (hu : u < mat.M)
    (hv : v < mat.M) :
    scc (permMat mat σ.g τ.g) (permMatching m σ.f τ.f) (σ.f u) (σ.f v) ↔
      scc mat m u v := by
  have hbound : ∀ x y, dgE mat m x y = true → x < mat.M ∧ y < mat.M :=
    fun x y h => dgE_lt mat m h
  have hbound2 : ∀ x y,
      dgE (permMat mat σ.g τ.g) (permMatching m σ.f τ.f) x y = true →
        x < mat.M ∧ y < mat.M :=
    fun x y h => dgE_lt (permMat mat σ.g τ.g) (permMatching m σ.f τ.f) h
  have hconj : ∀ x y, x < mat.M → y < mat.M →
      dgE (permMat mat σ.g τ.g) (permMatching m σ.f τ.f) (σ.f x) (σ.f y) =
        dgE mat m x y :=
    fun x y hx hy => dgE_perm mat m σ τ hpm hx hy
  have hconj2 : ∀ x y, x < mat.M → y < mat.M →
      dgE mat m (σ.symm.f x) (σ.symm.f y) =
        dgE (permMat mat σ.g τ.g) (permMatching m σ.f τ.f) x y := by
    intro x y hx hy
    have h3 := hconj (σ.g x) (σ.g y) (σ.hg x hx) (σ.hg y hy)
    rw [σ.hfg x hx, σ.hfg y hy] at h3
    exact h3.symm
  constructor
  · rintro ⟨h1, h2⟩
    have h3 := reachSet_map _ _ mat.M σ.symm hbound2 hconj2 (σ.hf u hu) h1
    have h4 := reachSet_map _ _ mat.M σ.symm hbound2 hconj2 (σ.hf v hv) h2
    show v ∈ reachSet (dgE mat m) mat.M u ∧ u ∈ reachSet (dgE mat m) mat.M v
    constructor
    · have : σ.symm.f (σ.f v) = v := σ.hgf v hv
      rw [this] at h3
      have h5 : σ.symm.f (σ.f u) = u := σ.hgf u hu
      rwa [h5] at h3
    · have : σ.symm.f (σ.f u) = u := σ.hgf u hu
      rw [this] at h4
      have h5 : σ.symm.f (σ.f v) = v := σ.hgf v hv
      rwa [h5] at h4
  · rintro ⟨h1, h2⟩
    exact ⟨reachSet_map _ _ mat.M σ hbound hconj hu h1,
           reachSet_map _ _ mat.M σ hbound hconj hv h2⟩

theorem sccRepr_eq_iff {u v : Nat} (hu : u < mat.M) (hv : v < mat.M) :
    sccRepr mat m u = sccRepr mat m v ↔ scc mat m u v :=
  ⟨scc_of_sccRepr_eq mat m hu hv, sccRepr_eq_of_scc mat m hu⟩

theorem numBlocks_perm (σ : PermOn mat.M) (τ : PermOn mat.N)
    (hpm : PerfectMatching mat m) :
    numBlocks (permMat mat σ.g τ.g) (permMatching m σ.f τ.f) =
      numBlocks mat m := by
  set mat2 := permMat mat σ.g τ.g with hmat2
  set m2 := permMatching m σ.f τ.f with hm2
  have hM2 : mat2.M = mat.M := rfl
  apply Nat.le_antisymm
  · -- inject the relabeled representatives into the original ones via σ.g
    apply Finset.card_le_card_of_injOn (fun B => sccRepr mat m (σ.g B))
    · intro B hB
      have hBf := (mem_repsF mat2 m2).mp hB
      have hgB : σ.g B < mat.M := σ.hg B hBf.1
      exact (mem_repsF mat m).mpr
        ⟨sccRepr_lt mat m hgB, sccRepr_idem mat m hgB⟩
    · intro B1 hB1 B2 hB2 heq
      have hf1 := (mem_repsF mat2 m2).mp hB1
      have hf2 := (mem_repsF mat2 m2).mp hB2
      have hg1 : σ.g B1 < mat.M := σ.hg B1 hf1.1
      have hg2 : σ.g B2 < mat.M := σ.hg B2 hf2.1
      have hscc : scc mat m (σ.g B1) (σ.g B2) :=
        (sccRepr_eq_iff mat m hg1 hg2).mp heq
      have hscc2 : scc mat2 m2 (σ.f (σ.g B1)) (σ.f (σ.g B2)) :=
        (scc_perm mat m σ τ hpm hg1 hg2).mpr hscc
      rw [σ.hfg B1 hf1.1, σ.hfg B2 hf2.1] at hscc2
      have := sccRepr_eq_of_scc mat2 m2 hf1.1 hscc2
      rwa [hf1.2, hf2.2] at this
  · -- inject the original representatives into the relabeled ones via σ.f
    apply Finset.card_le_card_of_injOn (fun A => sccRepr mat2 m2 (σ.f A))
    · intro A hA
      have hAf := (mem_repsF mat m).mp hA
      have hfA : σ.f A < mat.M := σ.hf A hAf.1
      exact (mem_repsF mat2 m2).mpr
        ⟨sccRepr_lt mat2 m2 hfA, sccRepr_idem mat2 m2 hfA⟩
    · intro A1 hA1 A2 hA2 heq
      have hf1 := (mem_repsF mat m).mp hA1
      have hf2 := (mem_repsF mat m).mp hA2
      have hfA1 : σ.f A1 < mat.M := σ.hf A1 hf1.1
      have hfA2 : σ.f A2 < mat.M := σ.hf A2 hf2.1
      have hscc2 : scc mat2 m2 (σ.f A1) (σ.f A2) :=
        (sccRepr_eq_iff mat2 m2 hfA1 hfA2).mp heq
      have hscc : scc mat m A1 A2 :=
        (scc_perm mat m σ τ hpm hf1.1 hf2.1).mp hscc2
      have := sccRepr_eq_of_scc mat m hf1.1 hscc
      rwa [hf1.2, hf2.2] at this

/-- A row whose block index is `b` (the smallest such row). -/
def invRowBlock (b : Nat) : Nat :=
  ((List.range mat.M).find? (fun n => rowBlockFun mat m n == b)).getD 0

theorem invRowBlock_spec {b : Nat} (hb : b < numBlocks mat m) :
    invRowBlock mat m b < mat.M ∧ rowBlockFun mat m (invRowBlock mat m b) = b := by
  unfold invRowBlock
  cases hfind : (List.range mat.M).find? (fun n => rowBlockFun mat m n == b) with
  | none =>
      exfalso
      rw [List.find?_eq_none] at hfind
      rcases rowBlockFun_surj mat m hb with ⟨n, hn, hnb⟩
      exact absurd (by simpa using hnb)
        (by simpa using hfind n (List.mem_range.mpr hn))
  | some r =>
      constructor
      · simpa using List.mem_of_find?_eq_some hfind
      · have h2 := List.find?_some hfind
        simpa using h2

/-- C6: relabeling rows by a permutation `σ` and columns by a permutation `τ`,
applied consistently to the incidence structure and the matching, yields an
isomorphic block decomposition: the block count is unchanged, two rows share a
block after relabeling iff they did before, and there is a relabeling `π` of
block indices carrying the row/column block maps and the block dependency
structure of the original run to those of the permuted run. -/
theorem claim_C6 (σ : PermOn mat.M) (τ : PermOn mat.N)
    (mm : SpMat → List (Nat × Nat)) (r r2 : BTResult)
    (hMN : mat.M = mat.N) (hpm : PerfectMatching mat m)
    (hrun : block_triangularize mm mat (some m) = Except.ok r)
    (hrun2 : block_triangularize mm (permMat mat σ.g τ.g)
      (some (permMatching m σ.f τ.f)) = Except.ok r2) :
    numBlocks (permMat mat σ.g τ.g) (permMatching m σ.f τ.f) =
      numBlocks mat m ∧
    (∀ a b : Nat, a < mat.M → b < mat.M →
      (dictGet r2.row_block_map (σ.f a) = dictGet r2.row_block_map (σ.f b) ↔
       dictGet r.row_block_map a = dictGet r.row_block_map b)) ∧
    ∃ π : Nat → Nat,
      (∀ b : Nat, b < numBlocks mat m → π b < numBlocks mat m) ∧
      (∀ b b2 : Nat, b < numBlocks mat m → b2 < numBlocks mat m →
        π b = π b2 → b = b2) ∧
      (∀ a : Nat, a < mat.M →
        dictGet r2.row_block_map (σ.f a) = π (dictGet r.row_block_map a)) ∧
      (∀ c : Nat, c < mat.N →
        dictGet r2.col_block_map (τ.f c) = π (dictGet r.col_block_map c)) ∧
      (∀ b b2 : Nat, b < numBlocks mat m → b2 < numBlocks mat m →
        (b2 ∈ r.dag_ll.getD b [] ↔ π b2 ∈ r2.dag_ll.getD (π b) [])) := by
  have hpm2 := permMatching_pm mat m σ τ hpm
  have hr := btResult_eq_of_run mat m mm hMN hpm hrun
  have hr2 := btResult_eq_of_run (permMat mat σ.g τ.g) (permMatching m σ.f τ.f)
    mm hMN hpm2 hrun2
  subst hr
  subst hr2
  set mat2 := permMat mat σ.g τ.g with hmat2
  set m2 := permMatching m σ.f τ.f with hm2
  have hK2 : numBlocks mat2 m2 = numBlocks mat m := numBlocks_perm mat m σ τ hpm
  -- same grouping of rows into blocks
  have hgroup : ∀ a b : Nat, a < mat.M → b < mat.M →
      (rowBlockFun mat2 m2 (σ.f a) = rowBlockFun mat2 m2 (σ.f b) ↔
       rowBlockFun mat m a = rowBlockFun mat m b) := by
    intro a b ha hb
    rw [rowBlockFun_eq_iff mat2 m2 (σ.hf a ha) (σ.hf b hb),
      rowBlockFun_eq_iff mat m ha hb]
    exact scc_perm mat m σ τ hpm ha hb
  -- the induced block relabeling
  have hπ : ∀ a : Nat, a < mat.M →
      rowBlockFun mat2 m2 (σ.f a) =
        rowBlockFun mat2 m2 (σ.f (invRowBlock mat m (rowBlockFun mat m a))) := by
    intro a ha
    have hspec := invRowBlock_spec mat m (rowBlockFun_lt mat m ha)
    exact ((hgroup _ _ hspec.1 ha).mpr hspec.2).symm
  have hπb : ∀ b : Nat, b < numBlocks mat m →
      rowBlockFun mat2 m2 (σ.f (invRowBlock mat m b)) < numBlocks mat m := by
    intro b hb
    have hspec := invRowBlock_spec mat m hb
    have h2 := rowBlockFun_lt mat2 m2
      (show σ.f (invRowBlock mat m b) < mat2.M from σ.hf _ hspec.1)
    rwa [hK2] at h2
  have hπinj : ∀ b b2 : Nat, b < numBlocks mat m → b2 < numBlocks mat m →
      rowBlockFun mat2 m2 (σ.f (invRowBlock mat m b)) =
        rowBlockFun mat2 m2 (σ.f (invRowBlock mat m b2)) → b = b2 := by
    intro b b2 hb hb2 heq
    have hs1 := invRowBlock_spec mat m hb
    have hs2 := invRowBlock_spec mat m hb2
    have h2 := (hgroup _ _ hs1.1 hs2.1).mp heq
    rwa [hs1.2, hs2.2] at h2
  have hπrow : ∀ a : Nat, a < mat.M →
      rowBlockFun mat2 m2 (σ.f a) =
        rowBlockFun mat2 m2 (σ.f (invRowBlock mat m (rowBlockFun mat m a))) :=
    hπ
  refine ⟨hK2, ?_, ?_⟩
  · intro a b ha hb
    rw [row_block_map_get mat2 m2 (σ.hf a ha), row_block_map_get mat2 m2 (σ.hf b hb),
      row_block_map_get mat m ha, row_block_map_get mat m hb]
    exact hgroup a b ha hb
  refine ⟨fun b => rowBlockFun mat2 m2 (σ.f (invRowBlock mat m b)),
    hπb, hπinj, ?_, ?_, ?_⟩
  · -- rows
    intro a ha
    rw [row_block_map_get mat2 m2 (σ.hf a ha), row_block_map_get mat m ha]
    exact hπrow a ha
  · -- columns
    intro c hc
    have hc2 : τ.f c < mat2.N := τ.hf c hc
    rw [col_block_map_get mat2 m2 hc2, col_block_map_get mat m hc]
    have hcr : colRow m c < mat.M := colRow_lt mat m hMN hpm hc
    rw [show colRow m2 (τ.f c) = σ.f (colRow m c) from
      colRow_perm mat m σ τ hMN hpm hc]
    exact hπrow _ hcr
  · -- block dependency structure
    intro b b2 hb hb2
    show b2 ∈ (dagList mat m).getD b [] ↔ _ ∈ (dagList mat2 m2).getD _ []
    rw [mem_dagList, mem_dagList]
    constructor
    · rintro ⟨-, -, hadj⟩
      refine ⟨by rw [hK2]; exact hπb b hb, by rw [hK2]; exact hπb b2 hb2, ?_⟩
      rcases (blockAdj_iff_nodes mat m b b2).mp hadj with
        ⟨n, n2, hedge, hrepne, hbn2, hbn⟩
      have hmem := (mem_dgEdges mat m n n2).mp hedge
      have hn : n < mat.M := hmem.1
      have hn2 : n2 < mat.M := hmem.2.1
      rw [blockAdj_iff_nodes]
      refine ⟨σ.f n, σ.f n2, (dgEdges_perm mat m σ τ hpm hn hn2).mpr hedge, ?_, ?_, ?_⟩
      · intro h
        apply hrepne
        rw [sccRepr_eq_iff mat m hn2 hn]
        exact (scc_perm mat m σ τ hpm hn2 hn).mp
          ((sccRepr_eq_iff mat2 m2 (σ.hf n2 hn2) (σ.hf n hn)).mp h)
      · show rowBlockFun mat2 m2 (σ.f n2) =
          rowBlockFun mat2 m2 (σ.f (invRowBlock mat m b))
        rw [← hbn2]
        exact hπ n2 hn2
      · show rowBlockFun mat2 m2 (σ.f n) =
          rowBlockFun mat2 m2 (σ.f (invRowBlock mat m b2))
        rw [← hbn]
        exact hπ n hn
    · rintro ⟨-, -, hadj⟩
      refine ⟨hb, hb2, ?_⟩
      rcases (blockAdj_iff_nodes mat2 m2 _ _).mp hadj with
        ⟨n, n2, hedge, hrepne, hbn2, hbn⟩
      have hmem := (mem_dgEdges mat2 m2 n n2).mp hedge
      have hn : n < mat.M := hmem.1
      have hn2 : n2 < mat.M := hmem.2.1
      have hfn : σ.f (σ.g n) = n := σ.hfg n hn
      have hfn2 : σ.f (σ.g n2) = n2 := σ.hfg n2 hn2
      have hgn : σ.g n < mat.M := σ.hg n hn
      have hgn2 : σ.g n2 < mat.M := σ.hg n2 hn2
      rw [blockAdj_iff_nodes]
      refine ⟨σ.g n, σ.g n2, ?_, ?_, ?_, ?_⟩
      · have h3 := (dgEdges_perm mat m σ τ hpm hgn hgn2)
        rw [hfn, hfn2] at h3
        exact h3.mp hedge
      · intro h
        apply hrepne
        have h3 := (scc_perm mat m σ τ hpm hgn2 hgn).mpr
          ((sccRepr_eq_iff mat m hgn2 hgn).mp h)
        rw [hfn, hfn2] at h3
        exact (sccRepr_eq_iff mat2 m2 hn2 hn).mpr h3
      · apply hπinj _ _ (rowBlockFun_lt mat m hgn2) hb
        have h3 := hπ _ hgn2
        rw [hfn2] at h3
        rw [← h3, hbn2]
      · apply hπinj _ _ (rowBlockFun_lt mat m hgn) hb2
        have h3 := hπ _ hgn
        rw [hfn] at h3
        rw [← h3, hbn]

theorem claim_C6_witness :
    numBlocks
      (permMat (SpMat.mk 2 2 (fun i j => decide (j ≤ i)))
        (fun i => 1 - i) (fun i => 1 - i))
      (permMatching [(0, 0), (1, 1)] (fun i => 1 - i) (fun i => 1 - i)) =
    numBlocks (SpMat.mk 2 2 (fun i j => decide (j ≤ i))) [(0, 0), (1, 1)] :=
  (claim_C6 (SpMat.mk 2 2 (fun i j => decide (j ≤ i))) [(0, 0), (1, 1)]
    (PermOn.mk (fun i => 1 - i) (fun i => 1 - i)
      (by decide) (by decide) (by decide) (by decide))
    (PermOn.mk (fun i => 1 - i) (fun i => 1 - i)
      (by decide) (by decide) (by decide) (by decide))
    (fun _ => []) _ _ rfl (by decide) rfl rfl).1

end Triangularize
